import Mathlib

/-!
Verification of the tree/list mutation engines of the kanban-board and
tree-view widgets.

The embedding is a direct translation of the state-update logic of
src/kanban-board/src/KanbanBoard.tsx (namespace Kanban) and of the
tree-view component (namespace TreeView).  React state handlers are
modelled as pure snapshot transformers: each handler body
setState(prev => e) becomes a function from the previous snapshot
(plus the handler's parameters) to the new snapshot.  Generated ids
(generateId in the source, built from Date.now and Math.random) are
modelled as explicit parameters.  JavaScript arrays become List,
optional fields become Option, and JS truthiness of an optional array
(undefined is falsy, any array including [] is truthy) is modelled by
matching on the Option.
-/

/-- JS Array.prototype.splice insertion semantics: arr.splice(i, 0, x)
inserts x at index i, clamped to the array length (take/drop clamp the
same way). -/
def jsInsertAt {α : Type} (l : List α) (i : Nat) (x : α) : List α :=
  l.take i ++ x :: l.drop i

namespace Kanban

structure Card where
  id : String
  title : String
deriving DecidableEq, Repr

structure Column where
  id : String
  title : String
  cards : List Card
deriving DecidableEq, Repr

/-- handleAddCard from KanbanBoard.tsx: appends the freshly created card
(whose generated id is the newCard.id field here) to the column whose id
matches columnId. -/
def handleAddCard (cols : List Column) (columnId : String) (newCard : Card) : List Column :=
  cols.map fun col =>
    if col.id = columnId then { col with cards := col.cards ++ [newCard] } else col

/-- handleEditCard from KanbanBoard.tsx: replaces the title of every card
whose id matches cardId, in every column. -/
def handleEditCard (cols : List Column) (cardId newTitle : String) : List Column :=
  cols.map fun col =>
    { col with cards := col.cards.map fun c =>
        if c.id = cardId then { c with title := newTitle } else c }

/-- handleDeleteCard from KanbanBoard.tsx: filters the card out of every
column's card list. -/
def handleDeleteCard (cols : List Column) (cardId : String) : List Column :=
  cols.map fun col =>
    { col with cards := col.cards.filter fun c => c.id != cardId }

/-- The source-column search loop of handleDragEnd (findIndex over each
column's cards, keeping the first column that contains the id, the index
and the card found there). -/
def findCard : List Column → String → Option (Column × Nat × Card)
  | [], _ => none
  | col :: rest, cardId =>
    match col.cards.findIdx? (fun c => c.id == cardId) with
    | some idx =>
      -- the source reads col.cards[index]; the index returned by findIndex
      -- is always in bounds, so the none case below is unreachable
      match col.cards[idx]? with
      | some c => some (col, idx, c)
      | none => none
    | none => findCard rest cardId

/-- handleDragEnd from KanbanBoard.tsx.  The dnd-kit event is reduced to
its two observable inputs: active.id (the dragged card's id) and over
(the id of the droppable under the pointer, if any). -/
def handleDragEnd (cols : List Column) (activeId : String) (over : Option String) :
    List Column :=
  match over with
  | none => cols
  | some overId =>
    if activeId = overId then cols
    else
      match findCard cols activeId with
      | none => cols
      | some (sourceColumn, sourceIndex, card) =>
        match cols.find? (fun col => col.id == overId) with
        | some targetColumn =>
          -- dropped on a column droppable area
          if targetColumn.id = sourceColumn.id then cols
          else
            cols.map fun col =>
              if col.id = sourceColumn.id then
                { col with cards := col.cards.filter fun c => c.id != activeId }
              else if col.id = targetColumn.id then
                { col with cards := col.cards ++ [card] }
              else col
        | none =>
          -- dropped on another card
          match findCard cols overId with
          | none => cols
          | some (targetCol, targetCardIndex, _) =>
            if sourceColumn.id = targetCol.id then
              if targetCardIndex = sourceIndex then cols
              else
                -- splice out the source card, then insert at the (vacuously)
                -- adjusted index, exactly as in the source
                let newCards :=
                  jsInsertAt (sourceColumn.cards.eraseIdx sourceIndex)
                    (if targetCardIndex > sourceIndex then targetCardIndex else targetCardIndex)
                    card
                cols.map fun col =>
                  if col.id = sourceColumn.id then { col with cards := newCards } else col
            else
              cols.map fun col =>
                if col.id = sourceColumn.id then
                  { col with cards := col.cards.filter fun c => c.id != activeId }
                else if col.id = targetCol.id then
                  { col with cards := jsInsertAt col.cards targetCardIndex card }
                else col

/-- Spec-level observer: the card list of the column with the given id. -/
def cardsOf (cols : List Column) (colId : String) : Option (List Card) :=
  (cols.find? (fun col => col.id == colId)).map Column.cards

/-- Spec-level observer: ids of all columns. -/
def columnIds (cols : List Column) : List String :=
  cols.map Column.id

/-- Spec-level observer: all cards across all columns, in order. -/
def allCards : List Column → List Card
  | [] => []
  | col :: rest => col.cards ++ allCards rest

/-- Spec-level observer: ids of all cards across all columns. -/
def cardIds (cols : List Column) : List String :=
  (allCards cols).map Card.id

/-- Spec-level observer: total number of cards on the board. -/
def totalCards : List Column → Nat
  | [] => 0
  | col :: rest => col.cards.length + totalCards rest

end Kanban

section KanbanExamples

open Kanban

def exC1 : Card := { id := "c1", title := "Task 1" }
def exC2 : Card := { id := "c2", title := "Task 2" }
def exC3 : Card := { id := "c3", title := "Task 3" }

/-- The snapshot of the reorder example in the spec: one column todo
holding cards c1, c2, c3. -/
def exReorderCols : List Column :=
  [{ id := "todo", title := "Todo", cards := [exC1, exC2, exC3] }]

/-- The snapshot used against the same-column drop-on-column claim:
todo holding cards c1, c2. -/
def exSameColCols : List Column :=
  [{ id := "todo", title := "Todo", cards := [exC1, exC2] },
   { id := "done", title := "Done", cards := [] }]

end KanbanExamples

/-- Claim C4: for the column todo = [c1, c2, c3], dragging c1 onto c3
(the card at position 2 of the same column) removes c1 first and
re-inserts it at index 2 of the post-removal list, yielding
todo = [c2, c3, c1]. -/
theorem moveCard_reorder_example :
    Kanban.handleDragEnd exReorderCols "c1" (some "c3") =
      [{ id := "todo", title := "Todo", cards := [exC2, exC3, exC1] }] := by
  decide

/-- Claim C9 counterexample: with todo = [c1, c2], dropping c1 onto the
droppable area of its own column todo leaves the snapshot unchanged
(todo still ends in c2), instead of moving c1 to the end of todo as the
claim states. -/
theorem moveCard_same_column_drop_noop :
    Kanban.handleDragEnd exSameColCols "c1" (some "todo") = exSameColCols ∧
    Kanban.cardsOf (Kanban.handleDragEnd exSameColCols "c1" (some "todo")) "todo" =
      some [exC1, exC2] ∧
    [exC1, exC2] ≠ [exC2, exC1] := by
  refine ⟨by decide, by decide, by decide⟩

namespace TreeView

/-- TreeNode from tree-view types.ts.  The optional fields keep their
JS three-valued nature: children may be absent (undefined) or an array;
the three flags may be absent, false or true. -/
inductive TreeNode : Type where
  | mk : (id : String) → (name : String) → (children : Option (List TreeNode)) →
         (isExpanded : Option Bool) → (isLoading : Option Bool) →
         (hasLoaded : Option Bool) → TreeNode

def TreeNode.id : TreeNode → String
  | .mk i _ _ _ _ _ => i

def TreeNode.name : TreeNode → String
  | .mk _ nm _ _ _ _ => nm

def TreeNode.children : TreeNode → Option (List TreeNode)
  | .mk _ _ cs _ _ _ => cs

def TreeNode.isExpanded : TreeNode → Option Bool
  | .mk _ _ _ e _ _ => e

def TreeNode.isLoading : TreeNode → Option Bool
  | .mk _ _ _ _ l _ => l

def TreeNode.hasLoaded : TreeNode → Option Bool
  | .mk _ _ _ _ _ h => h

/-- Result of findNode from the tree-view component: the node, the array
that contains it (the forest itself for a root node, otherwise the parent
node's children array), and the index within that array.  atRoot records
whether that array is the forest itself, which is what the source's
reference comparison activeParent === prev observes. -/
structure FindResult where
  node : TreeNode
  parent : List TreeNode
  index : Nat
  atRoot : Bool

mutual
/-- The loop body of findNode: walk the remaining nodes of one level,
checking the id first and then, when the children array is present
(JS truthiness: any array, even empty), searching it recursively. -/
def findFrom (atRoot : Bool) (parent : List TreeNode) (i : Nat) :
    List TreeNode → String → Option FindResult
  | [], _ => none
  | n :: rest, nid =>
    if n.id = nid then some ⟨n, parent, i, atRoot⟩
    else
      match findInChildren n nid with
      | some r => some r
      | none => findFrom atRoot parent (i + 1) rest nid
def findInChildren : TreeNode → String → Option FindResult
  | .mk _ _ none _ _ _, _ => none
  | .mk _ _ (some cs) _ _ _, nid => findFrom false cs 0 cs nid
end

/-- findNode from the tree-view component. -/
def findNode (nodes : List TreeNode) (nid : String) : Option FindResult :=
  findFrom true nodes 0 nodes nid

mutual
/-- updateNode from the tree-view component: map over the forest,
applying the updater to every node whose id matches (without recursing
below a match), and otherwise recursing into the children array when it
is present. -/
def updateNode : List TreeNode → String → (TreeNode → TreeNode) → List TreeNode
  | [], _, _ => []
  | n :: rest, nid, f => updateOne n nid f :: updateNode rest nid f
def updateOne : TreeNode → String → (TreeNode → TreeNode) → TreeNode
  | .mk i nm cs e l h, nid, f =>
    if i = nid then f (.mk i nm cs e l h)
    else
      match cs with
      | some csl => .mk i nm (some (updateNode csl nid f)) e l h
      | none => .mk i nm none e l h
end

mutual
/-- deleteNode from the tree-view component.  The source filters out the
matching nodes of one level and then maps the recursive delete over the
survivors' children; this fused recursion produces the same list. -/
def deleteNode : List TreeNode → String → List TreeNode
  | [], _ => []
  | n :: rest, nid =>
    if n.id = nid then deleteNode rest nid
    else deleteOne n nid :: deleteNode rest nid
def deleteOne : TreeNode → String → TreeNode
  | .mk i nm none e l h, _ => .mk i nm none e l h
  | .mk i nm (some cs) e l h, nid => .mk i nm (some (deleteNode cs nid)) e l h
end

mutual
/-- addChildNode from the tree-view component: on the matching parent,
append the new node to its (possibly initialized) children array and set
isExpanded to true; otherwise recurse into a present children array. -/
def addChildNode : List TreeNode → String → TreeNode → List TreeNode
  | [], _, _ => []
  | n :: rest, pid, newNode => addChildOne n pid newNode :: addChildNode rest pid newNode
def addChildOne : TreeNode → String → TreeNode → TreeNode
  | .mk i nm cs e l h, pid, newNode =>
    if i = pid then .mk i nm (some (cs.getD [] ++ [newNode])) (some true) l h
    else
      match cs with
      | some csl => .mk i nm (some (addChildNode csl pid newNode)) e l h
      | none => .mk i nm none e l h
end

mutual
/-- isDescendant from handleDragEnd of the tree-view component: does the
subtree rooted at the given node contain nodeId (including the node
itself)? -/
def isDescendant (nodeId : String) : TreeNode → Bool
  | .mk i _ cs _ _ _ =>
    if i = nodeId then true
    else
      match cs with
      | some csl => anyDescendant nodeId csl
      | none => false
def anyDescendant (nodeId : String) : List TreeNode → Bool
  | [] => false
  | c :: rest => isDescendant nodeId c || anyDescendant nodeId rest
end

/-- The node literal built by handleAddChild: a generated id, the given
name, hasLoaded false, and no other fields. -/
def newTreeNode (nid nm : String) : TreeNode :=
  .mk nid nm none none none (some false)

/-- handleToggle: flip isExpanded on the matching node (JS negation of a
possibly-undefined boolean: undefined and false both negate to true). -/
def handleToggle (data : List TreeNode) (nid : String) : List TreeNode :=
  updateNode data nid fun n =>
    match n with
    | .mk i nm cs e l h => .mk i nm cs (some (!(e.getD false))) l h

/-- handleAddChild: build the new node and graft it under parentId. -/
def handleAddChild (data : List TreeNode) (parentId newId name : String) : List TreeNode :=
  addChildNode data parentId (newTreeNode newId name)

/-- handleEdit: replace the name of the matching node. -/
def handleEdit (data : List TreeNode) (nid newName : String) : List TreeNode :=
  updateNode data nid fun n =>
    match n with
    | .mk i _ cs e l h => .mk i newName cs e l h

/-- handleDelete: remove the node (and thereby its subtree). -/
def handleDelete (data : List TreeNode) (nid : String) : List TreeNode :=
  deleteNode data nid

/-- First phase of handleLoadChildren: before awaiting the simulated
fetch, set isLoading on the node. -/
def loadChildrenStart (data : List TreeNode) (nid : String) : List TreeNode :=
  updateNode data nid fun n =>
    match n with
    | .mk i nm cs e _ h => .mk i nm cs e (some true) h

/-- Success phase of handleLoadChildren: when the fetch resolves with a
children list, install it and set the three flags. -/
def loadChildrenSuccess (data : List TreeNode) (nid : String) (children : List TreeNode) :
    List TreeNode :=
  updateNode data nid fun n =>
    match n with
    | .mk i nm _ _ _ _ => .mk i nm (some children) (some true) (some false) (some true)

/-- Failure phase of handleLoadChildren: the catch block only clears
isLoading. -/
def loadChildrenFailure (data : List TreeNode) (nid : String) : List TreeNode :=
  updateNode data nid fun n =>
    match n with
    | .mk i nm cs e _ h => .mk i nm cs e (some false) h

/-- The list returned by simulateLazyLoad, with its two generated ids as
parameters. -/
def simulateLazyLoadResult (id1 id2 : String) : List TreeNode :=
  [.mk id1 "Child 1" none none none (some false),
   .mk id2 "Child 2" none none none (some false)]

/-- handleDragEnd from the tree-view component, over the two observable
inputs active.id and over.  The source's reference comparison
activeParent === prev is the atRoot flag of findNode; the comparison
overParent === updated compares a pre-existing array against the freshly
rebuilt post-removal array and therefore never holds at runtime, and it
sits in the sibling branch, which is unreachable anyway because
canHaveChildren is true for every node (children is either undefined or
an array). -/
def handleDragEnd (data : List TreeNode) (activeId : String) (over : Option String) :
    List TreeNode :=
  match over with
  | none => data
  | some overId =>
    if activeId = overId then data
    else
      match findNode data activeId, findNode data overId with
      | some activeFound, some overFound =>
        let activeNode := activeFound.node
        let activeIndex := activeFound.index
        -- cycle guard: only tested when activeNode.children is truthy
        if activeNode.children.isSome && isDescendant overId activeNode then data
        else
          let updated :=
            if activeFound.atRoot then data.eraseIdx activeIndex
            else
              -- the source addresses the containing array by the id of its
              -- first element, activeParent[0].id (the array is nonempty,
              -- it contains the node just found)
              match activeFound.parent with
              | [] => data
              | firstSibling :: _ =>
                updateNode data firstSibling.id fun n =>
                  match n with
                  | .mk i nm cs e l h =>
                    .mk i nm (some ((cs.getD []).eraseIdx activeIndex)) e l h
          let canHaveChildren :=
            match overFound.node.children with
            | none => true
            | some _ => true
          if canHaveChildren then
            updateNode updated overId fun n =>
              match n with
              | .mk i nm cs _ l h => .mk i nm (some (cs.getD [] ++ [activeNode])) (some true) l h
          else
            -- unreachable sibling branch, translated for completeness
            match overFound.parent with
            | [] => updated
            | firstSibling :: _ =>
              updateNode updated firstSibling.id fun n =>
                match n with
                | .mk i nm cs e l h =>
                  .mk i nm
                    (some (jsInsertAt (cs.getD [])
                      (if overFound.index ≥ activeIndex then overFound.index + 1
                       else overFound.index)
                      activeNode)) e l h
      | _, _ => data

mutual
/-- Spec-level observer: size of one node's subtree. -/
def nodeSize : TreeNode → Nat
  | .mk _ _ none _ _ _ => 1
  | .mk _ _ (some cs) _ _ _ => 1 + forestSize cs
/-- Spec-level observer: total number of nodes in a forest. -/
def forestSize : List TreeNode → Nat
  | [] => 0
  | n :: ns => nodeSize n + forestSize ns
end

mutual
/-- Spec-level observer: the nodes of one subtree in preorder. -/
def subNodes : TreeNode → List TreeNode
  | .mk i nm cs e l h =>
    .mk i nm cs e l h ::
      (match cs with
       | some csl => allNodes csl
       | none => [])
/-- Spec-level observer: all nodes of a forest in preorder. -/
def allNodes : List TreeNode → List TreeNode
  | [] => []
  | n :: rest => subNodes n ++ allNodes rest
end

/-- Spec-level observer: every node id in the forest, in preorder. -/
def forestIds (ns : List TreeNode) : List String :=
  (allNodes ns).map TreeNode.id

/-- Spec-level observer: every node id of one subtree, in preorder. -/
def subtreeIds (n : TreeNode) : List String :=
  (subNodes n).map TreeNode.id

mutual
/-- Spec-level observer: the first node with the given id in preorder. -/
def getNode? : List TreeNode → String → Option TreeNode
  | [], _ => none
  | n :: rest, nid =>
    match getInNode n nid with
    | some m => some m
    | none => getNode? rest nid
def getInNode : TreeNode → String → Option TreeNode
  | .mk i nm cs e l h, nid =>
    if i = nid then some (.mk i nm cs e l h)
    else
      match cs with
      | some csl => getNode? csl nid
      | none => none
end

end TreeView

section TreeExamples

open TreeView

def exNA : TreeNode := .mk "a" "A" none none none none
def exNB : TreeNode := .mk "b" "B" none none none none

/-- The failing snapshot for the moveNode bug: one root p whose children
are the leaves a and b. -/
def exBugForest : List TreeNode :=
  [.mk "p" "P" (some [exNA, exNB]) none none none]

end TreeExamples

/-- Claim C1 is violated by the code: in the forest with root p and
children a, b (all ids distinct), dragging b onto a duplicates b.  The
removal step of handleDragEnd addresses the parent by activeParent[0].id,
which is the first sibling a, not the parent p, so b is never detached
before being appended under a; afterwards the id b occurs twice. -/
theorem moveNode_duplicates_node :
    (TreeView.forestIds exBugForest).Nodup ∧
    ¬ (TreeView.forestIds (TreeView.handleDragEnd exBugForest "b" (some "a"))).Nodup := by
  refine ⟨by decide, by decide⟩

/-- Claim C2 is violated by the code on the same input: moving b onto a
grows the forest from 3 nodes to 4 instead of preserving the count. -/
theorem moveNode_changes_node_count :
    TreeView.forestSize exBugForest = 3 ∧
    TreeView.forestSize (TreeView.handleDragEnd exBugForest "b" (some "a")) = 4 := by
  refine ⟨by decide, by decide⟩

namespace TreeView

theorem nodeSize_pos (n : TreeNode) : 0 < nodeSize n := by
  match n with
  | .mk i nm none e l h => simp [nodeSize]
  | .mk i nm (some cs) e l h => simp [nodeSize]

/-- Strong induction on the total size of a forest, the workhorse for
every structural lemma about the nested TreeNode type. -/
theorem forestSizeStrongInd (P : List TreeNode → Prop)
    (step : ∀ ns, (∀ ms, forestSize ms < forestSize ns → P ms) → P ns) : ∀ ns, P ns := by
  intro ns
  have key : ∀ k ms, forestSize ms < k → P ms := by
    intro k
    induction k with
    | zero => intro ms hm; exact absurd hm (Nat.not_lt_zero _)
    | succ k ih => intro ms hm; exact step ms (fun ms2 h2 => ih ms2 (by omega))
  exact key (forestSize ns + 1) ns (by omega)

theorem forestSize_children_lt (i nm : String) (cs : List TreeNode)
    (e l h : Option Bool) (rest : List TreeNode) :
    forestSize cs < forestSize (.mk i nm (some cs) e l h :: rest) := by
  simp [forestSize, nodeSize]
  omega

theorem forestSize_rest_lt (n : TreeNode) (rest : List TreeNode) :
    forestSize rest < forestSize (n :: rest) := by
  have := nodeSize_pos n
  simp [forestSize]
  omega

theorem allNodes_cons (n : TreeNode) (rest : List TreeNode) :
    allNodes (n :: rest) = subNodes n ++ allNodes rest := by
  simp [allNodes]

theorem self_mem_subNodes (n : TreeNode) : n ∈ subNodes n := by
  cases n with
  | mk i nm cs e l h =>
    cases cs with
    | none => simp [subNodes]
    | some csl => simp [subNodes]

theorem forestIds_cons (n : TreeNode) (rest : List TreeNode) :
    forestIds (n :: rest) = subtreeIds n ++ forestIds rest := by
  simp [forestIds, subtreeIds, allNodes_cons]

theorem subtreeIds_mk (i nm : String) (cs : Option (List TreeNode)) (e l h : Option Bool) :
    subtreeIds (.mk i nm cs e l h) =
      i :: (match cs with | some csl => forestIds csl | none => []) := by
  match cs with
  | some csl => simp [subtreeIds, subNodes, forestIds, TreeNode.id]
  | none => simp [subtreeIds, subNodes, forestIds, TreeNode.id]

theorem subtreeIds_mk_none (i nm : String) (e l h : Option Bool) :
    subtreeIds (.mk i nm none e l h) = [i] := by
  simp [subtreeIds, subNodes, forestIds, TreeNode.id]

theorem subtreeIds_mk_some (i nm : String) (csl : List TreeNode) (e l h : Option Bool) :
    subtreeIds (.mk i nm (some csl) e l h) = i :: forestIds csl := by
  simp [subtreeIds, subNodes, forestIds, TreeNode.id]

theorem mem_id_forestIds {m : TreeNode} {ns : List TreeNode} (hm : m ∈ allNodes ns) :
    m.id ∈ forestIds ns :=
  List.mem_map_of_mem TreeNode.id hm

/-- If the updater fixes every node of the forest that carries the
searched id, updateNode is the identity. -/
theorem updateNode_eq_self (nid : String) (f : TreeNode → TreeNode) :
    ∀ ns : List TreeNode, (∀ m ∈ allNodes ns, m.id = nid → f m = m) →
      updateNode ns nid f = ns := by
  intro ns
  induction ns using forestSizeStrongInd with
  | step ns ih =>
    intro hf
    match ns with
    | [] => rfl
    | .mk i nm cs e l h :: rest =>
      have hmem : (TreeNode.mk i nm cs e l h) ∈ allNodes (.mk i nm cs e l h :: rest) := by
        rw [allNodes_cons]
        exact List.mem_append_left _ (self_mem_subNodes _)
      have hrest : updateNode rest nid f = rest := by
        refine ih rest (forestSize_rest_lt _ _) ?_
        intro m hm hid
        exact hf m (by rw [allNodes_cons]; exact List.mem_append_right _ hm) hid
      by_cases hid : i = nid
      · subst hid
        have hfix : f (.mk i nm cs e l h) = .mk i nm cs e l h :=
          hf _ hmem (by cases cs <;> simp [TreeNode.id])
        cases cs with
        | none => simp [updateNode, updateOne, hfix, hrest]
        | some csl => simp [updateNode, updateOne, hfix, hrest]
      · match cs with
        | none => simp [updateNode, updateOne, hid, hrest]
        | some csl =>
          have hcs : updateNode csl nid f = csl := by
            refine ih csl (forestSize_children_lt i nm csl e l h rest) ?_
            intro m hm hmid
            refine hf m ?_ hmid
            rw [allNodes_cons]
            refine List.mem_append_left _ ?_
            simp [subNodes]
            exact Or.inr hm
          simp [updateNode, updateOne, hid, hrest, hcs]

/-- updateNode with an id absent from the forest is the identity. -/
theorem updateNode_not_mem {nid : String} {ns : List TreeNode} (f : TreeNode → TreeNode)
    (hn : nid ∉ forestIds ns) : updateNode ns nid f = ns := by
  refine updateNode_eq_self nid f ns ?_
  intro m hm hid
  exact absurd (hid ▸ mem_id_forestIds hm) hn

/-- deleteNode with an id absent from the forest is the identity. -/
theorem deleteNode_not_mem {nid : String} :
    ∀ ns : List TreeNode, nid ∉ forestIds ns → deleteNode ns nid = ns := by
  intro ns
  induction ns using forestSizeStrongInd with
  | step ns ih =>
    intro hn
    match ns with
    | [] => rfl
    | .mk i nm cs e l h :: rest =>
      rw [forestIds_cons] at hn
      simp only [List.mem_append, not_or] at hn
      obtain ⟨hsub, hrest0⟩ := hn
      rw [subtreeIds_mk] at hsub
      have hid : ¬ (i = nid) := by
        intro hcontra
        exact hsub (by simp [hcontra])
      have hrest : deleteNode rest nid = rest := ih rest (forestSize_rest_lt _ _) hrest0
      match cs with
      | none => simp [deleteNode, deleteOne, TreeNode.id, hid, hrest]
      | some csl =>
        have hcs : deleteNode csl nid = csl := by
          refine ih csl (forestSize_children_lt i nm csl e l h rest) ?_
          intro hcontra
          exact hsub (by simp [hcontra])
        simp [deleteNode, deleteOne, TreeNode.id, hid, hrest, hcs]

/-- addChildNode with a parent id absent from the forest is the identity. -/
theorem addChildNode_not_mem {pid : String} (newNode : TreeNode) :
    ∀ ns : List TreeNode, pid ∉ forestIds ns → addChildNode ns pid newNode = ns := by
  intro ns
  induction ns using forestSizeStrongInd with
  | step ns ih =>
    intro hn
    match ns with
    | [] => rfl
    | .mk i nm cs e l h :: rest =>
      rw [forestIds_cons] at hn
      simp only [List.mem_append, not_or] at hn
      obtain ⟨hsub, hrest0⟩ := hn
      rw [subtreeIds_mk] at hsub
      have hid : ¬ (i = pid) := by
        intro hcontra
        exact hsub (by simp [hcontra])
      have hrest : addChildNode rest pid newNode = rest := ih rest (forestSize_rest_lt _ _) hrest0
      match cs with
      | none => simp [addChildNode, addChildOne, hid, hrest]
      | some csl =>
        have hcs : addChildNode csl pid newNode = csl := by
          refine ih csl (forestSize_children_lt i nm csl e l h rest) ?_
          intro hcontra
          exact hsub (by simp [hcontra])
        simp [addChildNode, addChildOne, hid, hrest, hcs]

/-- findFrom with an id absent from the searched nodes finds nothing,
whatever the bookkeeping arguments are. -/
theorem findFrom_not_mem {nid : String} :
    ∀ ns : List TreeNode, nid ∉ forestIds ns →
      ∀ (b : Bool) (p : List TreeNode) (i : Nat), findFrom b p i ns nid = none := by
  intro ns
  induction ns using forestSizeStrongInd with
  | step ns ih =>
    intro hn b p i
    match ns with
    | [] => rfl
    | .mk j nm cs e l h :: rest =>
      rw [forestIds_cons] at hn
      simp only [List.mem_append, not_or] at hn
      obtain ⟨hsub, hrest0⟩ := hn
      rw [subtreeIds_mk] at hsub
      have hid : ¬ (j = nid) := by
        intro hcontra
        exact hsub (by simp [hcontra])
      have hrest : findFrom b p (i + 1) rest nid = none :=
        ih rest (forestSize_rest_lt _ _) hrest0 b p (i + 1)
      match cs with
      | none => simp [findFrom, findInChildren, TreeNode.id, hid, hrest]
      | some csl =>
        have hcs : findFrom false csl 0 csl nid = none := by
          refine ih csl (forestSize_children_lt j nm csl e l h rest) ?_ false csl 0
          intro hcontra
          exact hsub (by simp [hcontra])
        simp [findFrom, findInChildren, TreeNode.id, hid, hrest, hcs]

/-- findNode with an absent id finds nothing. -/
theorem findNode_not_mem {nid : String} {ns : List TreeNode} (hn : nid ∉ forestIds ns) :
    findNode ns nid = none :=
  findFrom_not_mem ns hn true ns 0

end TreeView

namespace Kanban

theorem mem_allCards {c : Card} {col : Column} {cols : List Column}
    (hcol : col ∈ cols) (hc : c ∈ col.cards) : c ∈ allCards cols := by
  induction cols with
  | nil => cases hcol
  | cons col2 rest ih =>
    rcases List.mem_cons.mp hcol with h1 | h2
    · subst h1
      exact List.mem_append_left _ hc
    · exact List.mem_append_right _ (ih h2)

theorem card_id_ne_of_not_mem {cardId : String} {cols : List Column}
    (h : cardId ∉ cardIds cols) {col : Column} (hcol : col ∈ cols)
    {c : Card} (hc : c ∈ col.cards) : c.id ≠ cardId := by
  intro hcontra
  exact h (hcontra ▸ List.mem_map_of_mem Card.id (mem_allCards hcol hc))

theorem col_id_ne_of_not_mem {colId : String} {cols : List Column}
    (h : colId ∉ columnIds cols) {col : Column} (hcol : col ∈ cols) : col.id ≠ colId := by
  intro hcontra
  exact h (hcontra ▸ List.mem_map_of_mem Column.id hcol)

theorem handleAddCard_not_mem {colId : String} {cols : List Column} (nc : Card)
    (h : colId ∉ columnIds cols) : handleAddCard cols colId nc = cols := by
  unfold handleAddCard
  have hfix : ∀ col ∈ cols,
      (if col.id = colId then { col with cards := col.cards ++ [nc] } else col) = col := by
    intro col hcol
    exact if_neg (col_id_ne_of_not_mem h hcol)
  rw [List.map_congr_left hfix, List.map_id']

theorem handleEditCard_not_mem {cardId : String} {cols : List Column} (t : String)
    (h : cardId ∉ cardIds cols) : handleEditCard cols cardId t = cols := by
  unfold handleEditCard
  have hfix : ∀ col ∈ cols,
      ({ col with cards := col.cards.map fun c =>
          if c.id = cardId then { c with title := t } else c } : Column) = col := by
    intro col hcol
    have hcards : (col.cards.map fun c =>
        if c.id = cardId then { c with title := t } else c) = col.cards := by
      have : ∀ c ∈ col.cards,
          (if c.id = cardId then { c with title := t } else c) = c := by
        intro c hc
        exact if_neg (card_id_ne_of_not_mem h hcol hc)
      rw [List.map_congr_left this, List.map_id']
    rw [hcards]
  rw [List.map_congr_left hfix, List.map_id']

theorem handleDeleteCard_not_mem {cardId : String} {cols : List Column}
    (h : cardId ∉ cardIds cols) : handleDeleteCard cols cardId = cols := by
  unfold handleDeleteCard
  have hfix : ∀ col ∈ cols,
      ({ col with cards := col.cards.filter fun c => c.id != cardId } : Column) = col := by
    intro col hcol
    have hcards : (col.cards.filter fun c => c.id != cardId) = col.cards := by
      rw [List.filter_eq_self]
      intro c hc
      exact bne_iff_ne.mpr (card_id_ne_of_not_mem h hcol hc)
    rw [hcards]
  rw [List.map_congr_left hfix, List.map_id']

theorem cardIds_cons (col : Column) (rest : List Column) :
    cardIds (col :: rest) = col.cards.map Card.id ++ cardIds rest := by
  simp [cardIds, allCards]

theorem findCard_not_mem {cardId : String} {cols : List Column}
    (h : cardId ∉ cardIds cols) : findCard cols cardId = none := by
  induction cols with
  | nil => rfl
  | cons col rest ih =>
    rw [cardIds_cons] at h
    simp only [List.mem_append, not_or] at h
    obtain ⟨hhead, hrest⟩ := h
    have hidx : col.cards.findIdx? (fun c => c.id == cardId) = none := by
      rw [List.findIdx?_eq_none_iff]
      intro c hc
      have : c.id ≠ cardId := by
        intro hcontra
        exact hhead (hcontra ▸ List.mem_map_of_mem Card.id hc)
      simp [this]
    simp [findCard, hidx, ih hrest]

theorem find?_column_not_mem {overId : String} {cols : List Column}
    (h : overId ∉ columnIds cols) : cols.find? (fun col => col.id == overId) = none := by
  rw [List.find?_eq_none]
  intro col hcol
  simp [col_id_ne_of_not_mem h hcol]

theorem handleDragEnd_active_not_mem {activeId : String} {cols : List Column}
    (h : activeId ∉ cardIds cols) (ov : Option String) :
    handleDragEnd cols activeId ov = cols := by
  match ov with
  | none => rfl
  | some overId =>
    by_cases heq : activeId = overId
    · simp [handleDragEnd, heq]
    · simp [handleDragEnd, heq, findCard_not_mem h]

theorem handleDragEnd_over_not_mem {overId : String} {cols : List Column}
    (h1 : overId ∉ columnIds cols) (h2 : overId ∉ cardIds cols) (aid : String) :
    handleDragEnd cols aid (some overId) = cols := by
  by_cases heq : aid = overId
  · simp [handleDragEnd, heq]
  · cases hfa : findCard cols aid with
    | none => simp [handleDragEnd, heq, hfa]
    | some r =>
      simp [handleDragEnd, heq, hfa, find?_column_not_mem h1, findCard_not_mem h2]

end Kanban

namespace TreeView

theorem treeDragEnd_active_not_mem {nid : String} {forest : List TreeNode}
    (h : nid ∉ forestIds forest) (ov : Option String) :
    handleDragEnd forest nid ov = forest := by
  match ov with
  | none => rfl
  | some overId =>
    by_cases heq : nid = overId
    · simp [handleDragEnd, heq]
    · simp [handleDragEnd, heq, findNode_not_mem h]

theorem treeDragEnd_over_not_mem {nid : String} {forest : List TreeNode}
    (h : nid ∉ forestIds forest) (aid : String) :
    handleDragEnd forest aid (some nid) = forest := by
  by_cases heq : aid = nid
  · simp [handleDragEnd, heq]
  · cases hfa : findNode forest aid with
    | none => simp [handleDragEnd, heq, hfa]
    | some r => simp [handleDragEnd, heq, hfa, findNode_not_mem h]

end TreeView

/-- Claim C5: every edit, delete and move operation called with an id
that occurs nowhere in the snapshot returns the snapshot unchanged (the
Lean functions are total, so no error can be raised): addCard with an
unknown column id, editCard/deleteCard/moveCard with an unknown card id,
moveCard dropped over an unknown droppable, toggleExpand/editNode/
deleteNode/moveNode with an unknown node id, and addChild with an
unknown parent id. -/
theorem noop_on_missing_id
    (cols : List Kanban.Column) (forest : List TreeView.TreeNode)
    (colId cardId overId nid : String) (newCard : Kanban.Card)
    (title newName childId childName : String)
    (hcol : colId ∉ Kanban.columnIds cols)
    (hcard : cardId ∉ Kanban.cardIds cols)
    (hoverCol : overId ∉ Kanban.columnIds cols)
    (hoverCard : overId ∉ Kanban.cardIds cols)
    (hnid : nid ∉ TreeView.forestIds forest) :
    Kanban.handleAddCard cols colId newCard = cols ∧
    Kanban.handleEditCard cols cardId title = cols ∧
    Kanban.handleDeleteCard cols cardId = cols ∧
    (∀ ov, Kanban.handleDragEnd cols cardId ov = cols) ∧
    (∀ aid, Kanban.handleDragEnd cols aid (some overId) = cols) ∧
    TreeView.handleToggle forest nid = forest ∧
    TreeView.handleEdit forest nid newName = forest ∧
    TreeView.handleDelete forest nid = forest ∧
    TreeView.handleAddChild forest nid childId childName = forest ∧
    (∀ ov, TreeView.handleDragEnd forest nid ov = forest) ∧
    (∀ aid, TreeView.handleDragEnd forest aid (some nid) = forest) :=
  ⟨Kanban.handleAddCard_not_mem newCard hcol,
   Kanban.handleEditCard_not_mem title hcard,
   Kanban.handleDeleteCard_not_mem hcard,
   fun ov => Kanban.handleDragEnd_active_not_mem hcard ov,
   fun aid => Kanban.handleDragEnd_over_not_mem hoverCol hoverCard aid,
   TreeView.updateNode_not_mem _ hnid,
   TreeView.updateNode_not_mem _ hnid,
   TreeView.deleteNode_not_mem forest hnid,
   TreeView.addChildNode_not_mem _ forest hnid,
   fun ov => TreeView.treeDragEnd_active_not_mem hnid ov,
   fun aid => TreeView.treeDragEnd_over_not_mem hnid aid⟩

/-- Witness for noop_on_missing_id at a concrete snapshot and the
concrete unknown id zzz. -/
theorem noop_on_missing_id_witness :
    Kanban.handleAddCard exSameColCols "zzz" exC3 = exSameColCols ∧
    Kanban.handleDragEnd exSameColCols "c1" (some "zzz") = exSameColCols ∧
    TreeView.handleToggle exBugForest "zzz" = exBugForest ∧
    TreeView.handleDragEnd exBugForest "zzz" (some "a") = exBugForest := by
  have h := noop_on_missing_id exSameColCols exBugForest "zzz" "zzz" "zzz" "zzz" exC3
    "t" "n" "cid" "cn" (by decide) (by decide) (by decide) (by decide) (by decide)
  exact ⟨h.1, h.2.2.2.2.1 "c1", h.2.2.2.2.2.1, h.2.2.2.2.2.2.2.2.2.1 (some "a")⟩

namespace TreeView

theorem getNode?_append (l1 l2 : List TreeNode) (qid : String) :
    getNode? (l1 ++ l2) qid =
      match getNode? l1 qid with
      | some m => some m
      | none => getNode? l2 qid := by
  induction l1 with
  | nil => simp [getNode?]
  | cons n rest ih =>
    simp only [List.cons_append, getNode?]
    cases hin : getInNode n qid with
    | some m => simp
    | none => simp [ih]

/-- The first preorder match both belongs to the forest and carries the
searched id. -/
theorem getNode?_mem_id {qid : String} :
    ∀ ns : List TreeNode, ∀ m : TreeNode, getNode? ns qid = some m →
      m ∈ allNodes ns ∧ m.id = qid := by
  intro ns
  induction ns using forestSizeStrongInd with
  | step ns ih =>
    intro m hm
    match ns with
    | [] => cases hm
    | .mk i nm cs e l h :: rest =>
      rw [allNodes_cons]
      by_cases hid : i = qid
      · subst hid
        cases cs with
        | none =>
          simp only [getNode?, getInNode, if_pos rfl] at hm
          cases hm
          exact ⟨List.mem_append_left _ (self_mem_subNodes _), by simp [TreeNode.id]⟩
        | some csl =>
          simp only [getNode?, getInNode, if_pos rfl] at hm
          cases hm
          exact ⟨List.mem_append_left _ (self_mem_subNodes _), by simp [TreeNode.id]⟩
      · cases cs with
        | none =>
          simp only [getNode?, getInNode, if_neg hid] at hm
          obtain ⟨hmem, hqid⟩ := ih rest (forestSize_rest_lt _ _) m hm
          exact ⟨List.mem_append_right _ hmem, hqid⟩
        | some csl =>
          simp only [getNode?, getInNode, if_neg hid] at hm
          cases hcsl : getNode? csl qid with
          | some m2 =>
            rw [hcsl] at hm
            cases hm
            obtain ⟨hmem, hqid⟩ :=
              ih csl (forestSize_children_lt i nm csl e l h rest) m hcsl
            refine ⟨List.mem_append_left _ ?_, hqid⟩
            cases hsub : subNodes (.mk i nm (some csl) e l h) with
            | nil => simp [subNodes] at hsub
            | cons x xs =>
              simp only [subNodes] at hsub
              cases hsub
              exact List.mem_cons_of_mem _ hmem
          | none =>
            rw [hcsl] at hm
            obtain ⟨hmem, hqid⟩ := ih rest (forestSize_rest_lt _ _) m hm
            exact ⟨List.mem_append_right _ hmem, hqid⟩

/-- When the preorder search fails the id is absent. -/
theorem not_mem_of_getNode?_eq_none {qid : String} :
    ∀ ns : List TreeNode, getNode? ns qid = none → qid ∉ forestIds ns := by
  intro ns
  induction ns using forestSizeStrongInd with
  | step ns ih =>
    intro hnone
    match ns with
    | [] => simp [forestIds, allNodes]
    | .mk i nm cs e l h :: rest =>
      rw [forestIds_cons]
      simp only [List.mem_append, not_or]
      by_cases hid : i = qid
      · subst hid
        cases cs <;> simp [getNode?, getInNode] at hnone
      · cases cs with
        | none =>
          simp only [getNode?, getInNode, if_neg hid] at hnone
          refine ⟨?_, ih rest (forestSize_rest_lt _ _) hnone⟩
          rw [subtreeIds_mk]
          simp [hid]
          intro hcontra
          exact hid hcontra.symm
        | some csl =>
          simp only [getNode?, getInNode, if_neg hid] at hnone
          cases hcsl : getNode? csl qid with
          | some m2 => rw [hcsl] at hnone; cases hnone
          | none =>
            rw [hcsl] at hnone
            have hcs := ih csl (forestSize_children_lt i nm csl e l h rest) hcsl
            refine ⟨?_, ih rest (forestSize_rest_lt _ _) hnone⟩
            rw [subtreeIds_mk]
            intro hcontra
            rcases List.mem_cons.mp hcontra with h1 | h2
            · exact hid h1.symm
            · exact hcs h2

/-- updateNode rewrites the first preorder match through the updater,
for any id-preserving updater. -/
theorem getNode?_updateNode {nid : String} {f : TreeNode → TreeNode}
    (hf : ∀ n, (f n).id = n.id) :
    ∀ ns : List TreeNode, getNode? (updateNode ns nid f) nid = (getNode? ns nid).map f := by
  intro ns
  induction ns using forestSizeStrongInd with
  | step ns ih =>
    match ns with
    | [] => simp [updateNode, getNode?]
    | .mk i nm cs e l h :: rest =>
      by_cases hid : i = nid
      · subst hid
        cases hfn : f (.mk i nm cs e l h) with
        | mk i2 nm2 cs2 e2 l2 h2 =>
          have hi2 : i2 = i := by
            have := hf (.mk i nm cs e l h)
            rw [hfn] at this
            simpa [TreeNode.id] using this
          subst hi2
          cases cs with
          | none =>
            simp only [updateNode, updateOne, if_pos rfl, hfn]
            cases cs2 with
            | none => simp [getNode?, getInNode, hfn]
            | some cs2l => simp [getNode?, getInNode, hfn]
          | some csl =>
            simp only [updateNode, updateOne, if_pos rfl, hfn]
            cases cs2 with
            | none => simp [getNode?, getInNode, hfn]
            | some cs2l => simp [getNode?, getInNode, hfn]
      · cases cs with
        | none =>
          simp only [updateNode, updateOne, if_neg hid]
          simp only [getNode?, getInNode, if_neg hid]
          exact ih rest (forestSize_rest_lt _ _)
        | some csl =>
          simp only [updateNode, updateOne, if_neg hid]
          simp only [getNode?, getInNode, if_neg hid]
          have hcs := ih csl (forestSize_children_lt i nm csl e l h rest)
          cases hcsl : getNode? csl nid with
          | some m =>
            rw [hcsl] at hcs
            rw [hcs]
            simp
          | none =>
            rw [hcsl] at hcs
            rw [hcs]
            simp
            exact ih rest (forestSize_rest_lt _ _)

end TreeView

/-- Claim C6: for a node present in the forest, the loading phase sets
isLoading on it and changes none of its other fields; the success phase
replaces its children with the fetched list and sets hasLoaded,
isExpanded true and isLoading false; the failure phase only clears
isLoading, leaving children and hasLoaded unchanged (the catch handler
swallows the error, and the phase functions are total). -/
theorem loadChildren_state_machine (forest : List TreeView.TreeNode) (nid i nm : String)
    (cs : Option (List TreeView.TreeNode)) (e l h : Option Bool)
    (kids : List TreeView.TreeNode)
    (hg : TreeView.getNode? forest nid = some (.mk i nm cs e l h)) :
    TreeView.getNode? (TreeView.loadChildrenStart forest nid) nid =
      some (.mk i nm cs e (some true) h) ∧
    TreeView.getNode? (TreeView.loadChildrenSuccess forest nid kids) nid =
      some (.mk i nm (some kids) (some true) (some false) (some true)) ∧
    TreeView.getNode? (TreeView.loadChildrenFailure forest nid) nid =
      some (.mk i nm cs e (some false) h) := by
  refine ⟨?_, ?_, ?_⟩
  · unfold TreeView.loadChildrenStart
    rw [TreeView.getNode?_updateNode (fun n => by cases n with
      | mk a b c d eo fo => simp [TreeView.TreeNode.id]) forest, hg]
    simp
  · unfold TreeView.loadChildrenSuccess
    rw [TreeView.getNode?_updateNode (fun n => by cases n with
      | mk a b c d eo fo => simp [TreeView.TreeNode.id]) forest, hg]
    simp
  · unfold TreeView.loadChildrenFailure
    rw [TreeView.getNode?_updateNode (fun n => by cases n with
      | mk a b c d eo fo => simp [TreeView.TreeNode.id]) forest, hg]
    simp

def exLoadForest : List TreeView.TreeNode :=
  [.mk "n1" "Node" none none none (some false)]

/-- Witness for loadChildren_state_machine on a one-node forest whose
node n1 has no children yet, loading the simulated two-child list. -/
theorem loadChildren_state_machine_witness :
    TreeView.getNode? (TreeView.loadChildrenSuccess exLoadForest "n1"
        (TreeView.simulateLazyLoadResult "k1" "k2")) "n1" =
      some (.mk "n1" "Node" (some (TreeView.simulateLazyLoadResult "k1" "k2"))
        (some true) (some false) (some true)) ∧
    TreeView.getNode? (TreeView.loadChildrenStart exLoadForest "n1") "n1" =
      some (.mk "n1" "Node" none none (some true) (some false)) :=
  have h := loadChildren_state_machine exLoadForest "n1" "n1" "Node" none none none
    (some false) (TreeView.simulateLazyLoadResult "k1" "k2") rfl
  ⟨h.2.1, h.1⟩

/-- Claim C8: renaming a node to the name it already has returns a
snapshot structurally equal to the input (the engine rebuilds the
spine, but every value is unchanged). -/
theorem editNode_same_name_noop (forest : List TreeView.TreeNode) (nid : String)
    (m : TreeView.TreeNode) (hnd : (TreeView.forestIds forest).Nodup)
    (hg : TreeView.getNode? forest nid = some m) :
    TreeView.handleEdit forest nid m.name = forest := by
  obtain ⟨hmem, hmid⟩ := TreeView.getNode?_mem_id forest m hg
  unfold TreeView.handleEdit
  refine TreeView.updateNode_eq_self nid _ forest ?_
  intro x hx hxid
  unfold TreeView.forestIds at hnd
  have hxm : x = m := List.inj_on_of_nodup_map hnd hx hmem (by rw [hxid, hmid])
  subst hxm
  cases x with
  | mk i nm2 cs e l h => simp [TreeView.TreeNode.name]

/-- Witness for editNode_same_name_noop: renaming node a of the example
forest to its current name A changes nothing. -/
theorem editNode_same_name_noop_witness :
    TreeView.handleEdit exBugForest "a" "A" = exBugForest :=
  editNode_same_name_noop exBugForest "a" exNA (by decide) rfl

namespace TreeView

/-- Spec-level observer: a node's own attributes, without its subtree. -/
def nodeAttrs (n : TreeNode) : String × String × Option Bool × Option Bool × Option Bool :=
  (n.id, n.name, n.isExpanded, n.isLoading, n.hasLoaded)

/-- The per-parent update performed by addChildNode. -/
def addChildUpd (nn : TreeNode) (n : TreeNode) : TreeNode :=
  match n with
  | .mk i nm cs _ l h => .mk i nm (some (cs.getD [] ++ [nn])) (some true) l h

/-- addChildNode is updateNode with the append-child updater. -/
theorem addChildNode_eq_updateNode (pid : String) (nn : TreeNode) :
    ∀ ns : List TreeNode, addChildNode ns pid nn = updateNode ns pid (addChildUpd nn) := by
  intro ns
  induction ns using forestSizeStrongInd with
  | step ns ih =>
    match ns with
    | [] => rfl
    | .mk i nm cs e l h :: rest =>
      have hrest := ih rest (forestSize_rest_lt _ _)
      by_cases hip : i = pid
      · subst hip
        cases cs with
        | none => simp [addChildNode, addChildOne, updateNode, updateOne, addChildUpd, hrest]
        | some csl =>
          simp [addChildNode, addChildOne, updateNode, updateOne, addChildUpd, hrest]
      · cases cs with
        | none => simp [addChildNode, addChildOne, updateNode, updateOne, hip, hrest]
        | some csl =>
          have hcs := ih csl (forestSize_children_lt i nm csl e l h rest)
          simp [addChildNode, addChildOne, updateNode, updateOne, hip, hrest, hcs]

theorem forestSize_cons (n : TreeNode) (rest : List TreeNode) :
    forestSize (n :: rest) = nodeSize n + forestSize rest := by
  simp [forestSize]

theorem nodeSize_mk_none (i nm : String) (e l h : Option Bool) :
    nodeSize (.mk i nm none e l h) = 1 := by
  simp [nodeSize]

theorem nodeSize_mk_some (i nm : String) (csl : List TreeNode) (e l h : Option Bool) :
    nodeSize (.mk i nm (some csl) e l h) = 1 + forestSize csl := by
  simp [nodeSize]

theorem forestSize_append : ∀ l1 l2 : List TreeNode,
    forestSize (l1 ++ l2) = forestSize l1 + forestSize l2 := by
  intro l1 l2
  induction l1 with
  | nil => simp [forestSize]
  | cons n rest ih =>
    rw [List.cons_append, forestSize_cons, forestSize_cons, ih]
    omega

theorem addChildNode_cons (n : TreeNode) (rest : List TreeNode) (pid : String)
    (nn : TreeNode) :
    addChildNode (n :: rest) pid nn = addChildOne n pid nn :: addChildNode rest pid nn := by
  simp [addChildNode]

theorem addChildOne_match_none (i nm : String) (e l h : Option Bool) (nn : TreeNode) :
    addChildOne (.mk i nm none e l h) i nn = .mk i nm (some [nn]) (some true) l h := by
  simp [addChildOne]

theorem addChildOne_match_some (i nm : String) (csl : List TreeNode) (e l h : Option Bool)
    (nn : TreeNode) :
    addChildOne (.mk i nm (some csl) e l h) i nn =
      .mk i nm (some (csl ++ [nn])) (some true) l h := by
  simp [addChildOne]

theorem addChildOne_nomatch_none (i nm : String) (e l h : Option Bool) (pid : String)
    (nn : TreeNode) (hip : ¬ (i = pid)) :
    addChildOne (.mk i nm none e l h) pid nn = .mk i nm none e l h := by
  simp [addChildOne, hip]

theorem addChildOne_nomatch_some (i nm : String) (csl : List TreeNode) (e l h : Option Bool)
    (pid : String) (nn : TreeNode) (hip : ¬ (i = pid)) :
    addChildOne (.mk i nm (some csl) e l h) pid nn =
      .mk i nm (some (addChildNode csl pid nn)) e l h := by
  simp [addChildOne, hip]

theorem count_eq_zero_not_mem {pid : String} {ns : List TreeNode}
    (h : (forestIds ns).count pid = 0) : pid ∉ forestIds ns :=
  List.count_eq_zero.mp h

/-- When the parent id occurs exactly once, addChildNode grows the
forest by exactly the size of the grafted node. -/
theorem forestSize_addChildNode (pid : String) (nn : TreeNode) :
    ∀ ns : List TreeNode, (forestIds ns).count pid = 1 →
      forestSize (addChildNode ns pid nn) = forestSize ns + nodeSize nn := by
  intro ns
  induction ns using forestSizeStrongInd with
  | step ns ih =>
    intro hcount
    match ns with
    | [] => simp [forestIds, allNodes] at hcount
    | .mk i nm cs e l h :: rest =>
      cases cs with
      | none =>
        rw [forestIds_cons, List.count_append, subtreeIds_mk_none] at hcount
        by_cases hip : i = pid
        · subst hip
          rw [List.count_cons_self, List.count_nil] at hcount
          have hrest0 : (forestIds rest).count i = 0 := by omega
          have hrest : addChildNode rest i nn = rest :=
            addChildNode_not_mem nn rest (count_eq_zero_not_mem hrest0)
          rw [addChildNode_cons, addChildOne_match_none, hrest, forestSize_cons,
            forestSize_cons, nodeSize_mk_none, nodeSize_mk_some, forestSize_cons]
          simp only [forestSize]
          omega
        · rw [List.count_cons_of_ne (fun hc => hip hc.symm), List.count_nil] at hcount
          have hrest1 : (forestIds rest).count pid = 1 := by omega
          have hrest := ih rest (forestSize_rest_lt _ _) hrest1
          rw [addChildNode_cons, addChildOne_nomatch_none _ _ _ _ _ _ _ hip,
            forestSize_cons, forestSize_cons, hrest]
          omega
      | some csl =>
        rw [forestIds_cons, List.count_append, subtreeIds_mk_some] at hcount
        by_cases hip : i = pid
        · subst hip
          rw [List.count_cons_self] at hcount
          have hrest0 : (forestIds rest).count i = 0 := by omega
          have hrest : addChildNode rest i nn = rest :=
            addChildNode_not_mem nn rest (count_eq_zero_not_mem hrest0)
          rw [addChildNode_cons, addChildOne_match_some, hrest, forestSize_cons,
            forestSize_cons, nodeSize_mk_some, nodeSize_mk_some, forestSize_append,
            forestSize_cons]
          simp only [forestSize]
          omega
        · rw [List.count_cons_of_ne (fun hc => hip hc.symm)] at hcount
          by_cases hcsl0 : (forestIds csl).count pid = 0
          · have hrest1 : (forestIds rest).count pid = 1 := by omega
            have hcs : addChildNode csl pid nn = csl :=
              addChildNode_not_mem nn csl (count_eq_zero_not_mem hcsl0)
            have hrest := ih rest (forestSize_rest_lt _ _) hrest1
            rw [addChildNode_cons, addChildOne_nomatch_some _ _ _ _ _ _ _ _ hip, hcs,
              forestSize_cons, forestSize_cons, hrest]
            omega
          · have hcsl1 : (forestIds csl).count pid = 1 := by omega
            have hrest0 : (forestIds rest).count pid = 0 := by omega
            have hcs := ih csl (forestSize_children_lt i nm csl e l h rest) hcsl1
            have hrest : addChildNode rest pid nn = rest :=
              addChildNode_not_mem nn rest (count_eq_zero_not_mem hrest0)
            rw [addChildNode_cons, addChildOne_nomatch_some _ _ _ _ _ _ _ _ hip, hrest,
              forestSize_cons, forestSize_cons, nodeSize_mk_some, nodeSize_mk_some, hcs]
            omega

/-- Grafting a fresh leaf under the parent does not change the own
attributes of any node with a different id. -/
theorem getNode?_addChildNode_frame {pid qid : String} {nn : TreeNode}
    (hq1 : qid ≠ pid) (hq2 : qid ≠ nn.id) (hnn : nn.children = none) :
    ∀ ns : List TreeNode,
      (getNode? (addChildNode ns pid nn) qid).map nodeAttrs =
        (getNode? ns qid).map nodeAttrs := by
  intro ns
  induction ns using forestSizeStrongInd with
  | step ns ih =>
    match ns with
    | [] => rfl
    | .mk i nm cs e l h :: rest =>
      have hrest := ih rest (forestSize_rest_lt _ _)
      have hnnq : getInNode nn qid = none := by
        cases nn with
        | mk ni nnm nncs ne nl nh =>
          simp only [TreeNode.children] at hnn
          subst hnn
          have hne : ¬ (ni = qid) := by
            intro hcontra
            exact hq2 (by simp [TreeNode.id, hcontra])
          simp [getInNode, hne]
      by_cases hip : i = pid
      · subst hip
        have hiq : ¬ (i = qid) := fun hcontra => hq1 hcontra.symm
        cases cs with
        | none =>
          rw [addChildNode_cons, addChildOne_match_none]
          simp only [getNode?, getInNode, if_neg hiq, hnnq]
          exact hrest
        | some csl =>
          rw [addChildNode_cons, addChildOne_match_some]
          simp only [getNode?, getInNode, if_neg hiq]
          rw [getNode?_append]
          cases hcsl : getNode? csl qid with
          | some m => simp
          | none =>
            simp only [getNode?, hnnq]
            exact hrest
      · cases cs with
        | none =>
          rw [addChildNode_cons, addChildOne_nomatch_none _ _ _ _ _ _ _ hip]
          by_cases hiq : i = qid
          · subst hiq
            simp [getNode?, getInNode]
          · simp only [getNode?, getInNode, if_neg hiq]
            exact hrest
        | some csl =>
          have hcs := ih csl (forestSize_children_lt i nm csl e l h rest)
          rw [addChildNode_cons, addChildOne_nomatch_some _ _ _ _ _ _ _ _ hip]
          by_cases hiq : i = qid
          · subst hiq
            simp [getNode?, getInNode, nodeAttrs, TreeNode.id, TreeNode.name,
              TreeNode.isExpanded, TreeNode.isLoading, TreeNode.hasLoaded]
          · simp only [getNode?, getInNode, if_neg hiq]
            cases hcsl : getNode? csl qid with
            | some m2 =>
              rw [hcsl] at hcs
              cases hnew : getNode? (addChildNode csl pid nn) qid with
              | none => rw [hnew] at hcs; cases hcs
              | some m1 =>
                rw [hnew] at hcs
                simpa using hcs
            | none =>
              rw [hcsl] at hcs
              cases hnew : getNode? (addChildNode csl pid nn) qid with
              | some m1 => rw [hnew] at hcs; cases hcs
              | none => exact hrest

end TreeView

/-- Claim C7: addChild on a present parent id (occurring once) creates
exactly one new node (hasLoaded false, no children array), appends it as
the last element of the parent's children — initializing the children
sequence when it was absent, since the parent's stored children option
cs becomes some (cs.getD [] ++ [new]) — and forces isExpanded true on
the parent whatever its previous value e was; every node with any other
id keeps all of its own attributes. -/
theorem addChild_spec (forest : List TreeView.TreeNode) (pid newId newName : String)
    (nm : String) (cs : Option (List TreeView.TreeNode)) (e l h : Option Bool)
    (qid : String)
    (hg : TreeView.getNode? forest pid = some (.mk pid nm cs e l h))
    (hcount : (TreeView.forestIds forest).count pid = 1)
    (hq1 : qid ≠ pid) (hq2 : qid ≠ newId) :
    TreeView.getNode? (TreeView.handleAddChild forest pid newId newName) pid =
      some (.mk pid nm (some (cs.getD [] ++ [TreeView.newTreeNode newId newName]))
        (some true) l h) ∧
    (TreeView.getNode? (TreeView.handleAddChild forest pid newId newName) qid).map
        TreeView.nodeAttrs = (TreeView.getNode? forest qid).map TreeView.nodeAttrs ∧
    TreeView.forestSize (TreeView.handleAddChild forest pid newId newName) =
      TreeView.forestSize forest + 1 ∧
    (TreeView.newTreeNode newId newName).hasLoaded = some false ∧
    (TreeView.newTreeNode newId newName).children = none := by
  have hfid : ∀ n, (TreeView.addChildUpd (TreeView.newTreeNode newId newName) n).id =
      n.id := by
    intro n
    cases n with
    | mk a b c d eo fo => simp [TreeView.addChildUpd, TreeView.TreeNode.id]
  refine ⟨?_, ?_, ?_, rfl, rfl⟩
  · unfold TreeView.handleAddChild
    rw [TreeView.addChildNode_eq_updateNode pid (TreeView.newTreeNode newId newName)
      forest]
    rw [TreeView.getNode?_updateNode hfid forest, hg]
    simp [TreeView.addChildUpd]
  · unfold TreeView.handleAddChild
    refine TreeView.getNode?_addChildNode_frame hq1 ?_
      (by simp [TreeView.newTreeNode, TreeView.TreeNode.children]) forest
    simpa [TreeView.newTreeNode, TreeView.TreeNode.id] using hq2
  · unfold TreeView.handleAddChild
    have hsz := TreeView.forestSize_addChildNode pid
      (TreeView.newTreeNode newId newName) forest hcount
    rw [hsz]
    simp [TreeView.newTreeNode, TreeView.nodeSize_mk_none]

/-- Witness for addChild_spec: adding child x under the childless node b
of the example forest initializes b's children to the one-element list
[x] and expands b; node a keeps its attributes; the forest grows by one
node. -/
theorem addChild_spec_witness :
    TreeView.getNode? (TreeView.handleAddChild exBugForest "b" "x" "X") "b" =
      some (.mk "b" "B" (some [TreeView.newTreeNode "x" "X"]) (some true) none none) ∧
    TreeView.forestSize (TreeView.handleAddChild exBugForest "b" "x" "X") = 4 :=
  have hmain := addChild_spec exBugForest "b" "x" "X" "B" none none none none "a"
    rfl (by decide) (by decide) (by decide)
  ⟨hmain.1, by rw [hmain.2.2.1]; decide⟩

namespace TreeView

theorem subNodes_mk_none (i nm : String) (e l h : Option Bool) :
    subNodes (.mk i nm none e l h) = [.mk i nm none e l h] := by
  simp [subNodes]

theorem subNodes_mk_some (i nm : String) (csl : List TreeNode) (e l h : Option Bool) :
    subNodes (.mk i nm (some csl) e l h) = .mk i nm (some csl) e l h :: allNodes csl := by
  simp [subNodes]

/-- The node field of the source's findNode result is the first preorder
match, whatever the bookkeeping arguments. -/
theorem findFrom_node {nid : String} :
    ∀ ns : List TreeNode, ∀ (b : Bool) (p : List TreeNode) (i : Nat),
      (findFrom b p i ns nid).map FindResult.node = getNode? ns nid := by
  intro ns
  induction ns using forestSizeStrongInd with
  | step ns ih =>
    intro b p i
    match ns with
    | [] => simp [findFrom, getNode?]
    | .mk j nm cs e l h :: rest =>
      by_cases hj : j = nid
      · cases cs <;>
          simp [findFrom, findInChildren, getNode?, getInNode, TreeNode.id, hj]
      · cases cs with
        | none =>
          simp only [findFrom, findInChildren, TreeNode.id, if_neg hj]
          simp only [getNode?, getInNode, if_neg hj]
          exact ih rest (forestSize_rest_lt _ _) b p (i + 1)
        | some csl =>
          have hcs := ih csl (forestSize_children_lt j nm csl e l h rest) false csl 0
          simp only [findFrom, findInChildren, TreeNode.id, if_neg hj]
          simp only [getNode?, getInNode, if_neg hj]
          cases hf : findFrom false csl 0 csl nid with
          | some r =>
            rw [hf] at hcs
            rw [show getNode? csl nid = some r.node from by simpa using hcs.symm]
            simp
          | none =>
            rw [hf] at hcs
            rw [show getNode? csl nid = none from by simpa using hcs.symm]
            exact ih rest (forestSize_rest_lt _ _) b p (i + 1)

theorem findNode_node (ns : List TreeNode) (nid : String) :
    (findNode ns nid).map FindResult.node = getNode? ns nid := by
  unfold findNode
  exact findFrom_node ns true ns 0

theorem findNode_isSome_of_mem {nid : String} {ns : List TreeNode}
    (h : nid ∈ forestIds ns) : ∃ r, findNode ns nid = some r := by
  cases hf : findNode ns nid with
  | some r => exact ⟨r, rfl⟩
  | none =>
    have hb := findNode_node ns nid
    rw [hf] at hb
    exact absurd h (not_mem_of_getNode?_eq_none ns hb.symm)

/-- The nodes of a member's subtree all belong to the forest. -/
theorem subNodes_subset_allNodes :
    ∀ ns : List TreeNode, ∀ m ∈ allNodes ns, ∀ x ∈ subNodes m, x ∈ allNodes ns := by
  intro ns
  induction ns using forestSizeStrongInd with
  | step ns ih =>
    intro m hm x hx
    match ns with
    | [] => simp [allNodes] at hm
    | .mk j nm cs e l h :: rest =>
      rw [allNodes_cons] at hm ⊢
      rcases List.mem_append.mp hm with h1 | h2
      · refine List.mem_append_left _ ?_
        cases cs with
        | none =>
          rw [subNodes_mk_none] at h1
          rcases List.mem_cons.mp h1 with hm1 | hm2
          · subst hm1
            exact hx
          · cases hm2
        | some csl =>
          rw [subNodes_mk_some] at h1 ⊢
          rcases List.mem_cons.mp h1 with hm1 | hm2
          · subst hm1
            rw [subNodes_mk_some] at hx
            exact hx
          · exact List.mem_cons_of_mem _
              (ih csl (forestSize_children_lt j nm csl e l h rest) m hm2 x hx)
      · exact List.mem_append_right _ (ih rest (forestSize_rest_lt _ _) m h2 x hx)

/-- If isDescendant finds the id somewhere below the nodes of a forest,
the id belongs to those nodes' ids. -/
theorem anyDescendant_mem {qid : String} :
    ∀ ns : List TreeNode, anyDescendant qid ns = true → qid ∈ forestIds ns := by
  intro ns
  induction ns using forestSizeStrongInd with
  | step ns ih =>
    intro hd
    match ns with
    | [] => simp [anyDescendant] at hd
    | .mk j nm cs e l h :: rest =>
      rw [forestIds_cons]
      simp only [anyDescendant] at hd
      rcases Bool.or_eq_true_iff.mp hd with hdn | hdr
      · refine List.mem_append_left _ ?_
        cases cs with
        | none =>
          simp only [isDescendant] at hdn
          rw [subtreeIds_mk_none]
          by_cases hj : j = qid
          · simp [hj]
          · rw [if_neg hj] at hdn
            cases hdn
        | some csl =>
          simp only [isDescendant] at hdn
          rw [subtreeIds_mk_some]
          by_cases hj : j = qid
          · simp [hj]
          · rw [if_neg hj] at hdn
            exact List.mem_cons_of_mem _
              (ih csl (forestSize_children_lt j nm csl e l h rest) hdn)
      · exact List.mem_append_right _ (ih rest (forestSize_rest_lt _ _) hdr)

theorem isDescendant_mem {qid : String} {n : TreeNode}
    (hd : isDescendant qid n = true) : qid ∈ subtreeIds n := by
  cases n with
  | mk j nm cs e l h =>
    cases cs with
    | none =>
      simp only [isDescendant] at hd
      rw [subtreeIds_mk_none]
      by_cases hj : j = qid
      · simp [hj]
      · rw [if_neg hj] at hd
        cases hd
    | some csl =>
      simp only [isDescendant] at hd
      rw [subtreeIds_mk_some]
      by_cases hj : j = qid
      · simp [hj]
      · rw [if_neg hj] at hd
        exact List.mem_cons_of_mem _ (anyDescendant_mem csl hd)

theorem isDescendant_children_isSome {qid : String} {m : TreeNode}
    (hd : isDescendant qid m = true) (hne : ¬ (m.id = qid)) :
    m.children.isSome = true := by
  cases m with
  | mk j nm cs e l h =>
    simp only [TreeNode.id] at hne
    cases cs with
    | none =>
      simp only [isDescendant, if_neg hne] at hd
      cases hd
    | some csl => simp [TreeNode.children]

end TreeView

/-- Claim C3: moveNode with a target that is the source itself or lies
inside the source's subtree leaves the forest unchanged: the early
active-equals-over check handles B = A, and the cycle guard (children
present and isDescendant) rejects every strict descendant. -/
theorem moveNode_cycle_rejected (forest : List TreeView.TreeNode) (A B : String)
    (hyp : B = A ∨ ∃ m, TreeView.getNode? forest A = some m ∧
      TreeView.isDescendant B m = true) :
    TreeView.handleDragEnd forest A (some B) = forest := by
  by_cases hab : A = B
  · simp [TreeView.handleDragEnd, hab]
  · have hBA : ¬ (B = A) := fun hc => hab hc.symm
    rcases hyp with h1 | ⟨m, hm, hdesc⟩
    · exact absurd h1 hBA
    · have hnodeA := TreeView.findNode_node forest A
      cases hfA : TreeView.findNode forest A with
      | none =>
        rw [hfA, hm] at hnodeA
        cases hnodeA
      | some rA =>
        rw [hfA, hm] at hnodeA
        have hrAnode : rA.node = m := by simpa using hnodeA
        have hmid : m.id = A := (TreeView.getNode?_mem_id forest m hm).2
        have hmall : m ∈ TreeView.allNodes forest := (TreeView.getNode?_mem_id forest m hm).1
        have hBsub : B ∈ TreeView.subtreeIds m := TreeView.isDescendant_mem hdesc
        have hBids : B ∈ TreeView.forestIds forest := by
          unfold TreeView.subtreeIds at hBsub
          rcases List.mem_map.mp hBsub with ⟨x, hx, hxid⟩
          have hxall := TreeView.subNodes_subset_allNodes forest m hmall x hx
          exact hxid ▸ TreeView.mem_id_forestIds hxall
        obtain ⟨rB, hfB⟩ := TreeView.findNode_isSome_of_mem hBids
        have hguard : (rA.node.children.isSome && TreeView.isDescendant B rA.node)
            = true := by
          rw [hrAnode]
          refine Bool.and_eq_true_iff.mpr ⟨?_, hdesc⟩
          exact TreeView.isDescendant_children_isSome hdesc (by rw [hmid]; exact hab)
        simp [TreeView.handleDragEnd, hab, hfA, hfB, hguard]

def exCycleForest : List TreeView.TreeNode :=
  [.mk "r" "R" (some [.mk "s" "S" none none none none]) none none none]

/-- Witness for moveNode_cycle_rejected: dragging the root r onto its
child s leaves the forest untouched. -/
theorem moveNode_cycle_rejected_witness :
    TreeView.handleDragEnd exCycleForest "r" (some "s") = exCycleForest :=
  moveNode_cycle_rejected exCycleForest "r" "s"
    (Or.inr ⟨.mk "r" "R" (some [.mk "s" "S" none none none none]) none none none,
      rfl, by decide⟩)

namespace Kanban

theorem findCard_mem {cols : List Column} {aid : String} {src : Column} {idx : Nat}
    {c : Card} (h : findCard cols aid = some (src, idx, c)) : src ∈ cols := by
  induction cols with
  | nil => cases h
  | cons col rest ih =>
    simp only [findCard] at h
    cases hidx : col.cards.findIdx? (fun x => x.id == aid) with
    | some i =>
      simp only [hidx] at h
      cases hget : col.cards[i]? with
      | some cc =>
        simp only [hget, Option.some.injEq, Prod.mk.injEq] at h
        obtain ⟨h1, h2, h3⟩ := h
        subst h1
        exact List.mem_cons_self _ _
      | none =>
        rw [hget] at h
        cases h
    | none =>
      simp only [hidx] at h
      exact List.mem_cons_of_mem _ (ih h)

theorem find?_id_of_nodup {cols : List Column} (hnodup : (cols.map Column.id).Nodup)
    {col : Column} (hmem : col ∈ cols) :
    cols.find? (fun c => c.id == col.id) = some col := by
  induction cols with
  | nil => cases hmem
  | cons hd rest ih =>
    rw [List.map_cons, List.nodup_cons] at hnodup
    obtain ⟨hnotin, hnd⟩ := hnodup
    rcases List.mem_cons.mp hmem with h1 | h2
    · subst h1
      exact List.find?_cons_of_pos _ (by simp)
    · by_cases hpa : hd.id = col.id
      · exact absurd (hpa ▸ List.mem_map_of_mem Column.id h2) hnotin
      · rw [List.find?_cons_of_neg _ (by simp [hpa])]
        exact ih hnd h2

theorem find?_pred_congr {α : Type} {p q : α → Bool} :
    ∀ l : List α, (∀ a ∈ l, p a = q a) → l.find? p = l.find? q := by
  intro l
  induction l with
  | nil => intro _; rfl
  | cons a rest ih =>
    intro hpq
    have ha := hpq a (List.mem_cons_self _ _)
    by_cases hp : p a = true
    · rw [List.find?_cons_of_pos _ hp, List.find?_cons_of_pos _ (ha ▸ hp)]
    · rw [List.find?_cons_of_neg _ hp, List.find?_cons_of_neg _ (by rw [← ha]; exact hp)]
      exact ih (fun x hx => hpq x (List.mem_cons_of_mem _ hx))

/-- A find?-by-id on a mapped snapshot reduces to find? on the original
snapshot whenever the map preserves column ids. -/
theorem find?_map_id {cols : List Column} {F : Column → Column}
    (hF : ∀ c, (F c).id = c.id) (X : String) :
    (cols.map F).find? (fun c => c.id == X) =
      (cols.find? (fun c => c.id == X)).map F := by
  rw [List.find?_map]
  congr 1
  refine find?_pred_congr cols ?_
  intro a _
  simp [Function.comp, hF a]

end Kanban

/-- Claim C9 amended: dropping a card onto the droppable area of a
different column removes it from its source column (the source keeps
exactly its cards whose id differs from the dragged id) and appends it
as the last card of the target column, while every other column keeps
its cards; dropping it onto its own source column's droppable area
returns the snapshot unchanged. -/
theorem moveCard_drop_on_column (cols : List Kanban.Column) (activeId overId : String)
    (src : Kanban.Column) (srcIdx : Nat) (card : Kanban.Card) (tgt : Kanban.Column)
    (hnodup : (cols.map Kanban.Column.id).Nodup)
    (hfind : Kanban.findCard cols activeId = some (src, srcIdx, card))
    (htgt : cols.find? (fun col => col.id == overId) = some tgt)
    (hne : activeId ≠ overId) :
    (tgt.id = src.id → Kanban.handleDragEnd cols activeId (some overId) = cols) ∧
    (tgt.id ≠ src.id →
      Kanban.cardsOf (Kanban.handleDragEnd cols activeId (some overId)) tgt.id =
        some (tgt.cards ++ [card]) ∧
      Kanban.cardsOf (Kanban.handleDragEnd cols activeId (some overId)) src.id =
        some (src.cards.filter fun c => c.id != activeId) ∧
      (∀ c ∈ src.cards.filter (fun c => c.id != activeId), c.id ≠ activeId) ∧
      (∀ col ∈ cols, col.id ≠ src.id → col.id ≠ tgt.id →
        Kanban.cardsOf (Kanban.handleDragEnd cols activeId (some overId)) col.id =
          some col.cards)) := by
  constructor
  · intro hts
    simp [Kanban.handleDragEnd, hne, hfind, htgt, hts]
  · intro hts
    have hstep : Kanban.handleDragEnd cols activeId (some overId) =
        cols.map (fun col =>
          if col.id = src.id then
            { col with cards := col.cards.filter fun c => c.id != activeId }
          else if col.id = tgt.id then
            { col with cards := col.cards ++ [card] }
          else col) := by
      simp [Kanban.handleDragEnd, hne, hfind, htgt, hts]
    have hFid : ∀ c : Kanban.Column,
        ((fun col =>
          if col.id = src.id then
            { col with cards := col.cards.filter fun c => c.id != activeId }
          else if col.id = tgt.id then
            { col with cards := col.cards ++ [card] }
          else col) c).id = c.id := by
      intro c
      dsimp only
      split
      · rfl
      · split
        · rfl
        · rfl
    have htgtid : tgt.id = overId := by
      have := List.find?_some htgt
      simpa using this
    have hsrcmem : src ∈ cols := Kanban.findCard_mem hfind
    refine ⟨?_, ?_, ?_, ?_⟩
    · rw [hstep]
      unfold Kanban.cardsOf
      rw [Kanban.find?_map_id hFid]
      rw [htgtid, htgt]
      have hts2 : overId ≠ src.id := htgtid ▸ hts
      simp [hts2, htgtid]
    · rw [hstep]
      unfold Kanban.cardsOf
      rw [Kanban.find?_map_id hFid]
      rw [Kanban.find?_id_of_nodup hnodup hsrcmem]
      simp
    · intro c hc
      rw [List.mem_filter] at hc
      exact bne_iff_ne.mp hc.2
    · intro col hcol hcs hct
      rw [hstep]
      unfold Kanban.cardsOf
      rw [Kanban.find?_map_id hFid]
      rw [Kanban.find?_id_of_nodup hnodup hcol]
      simp [hcs, hct]

/-- Witness for moveCard_drop_on_column: with todo = [c1, c2] and an
empty column done, dropping c1 onto the done droppable moves it to the
end of done and removes it from todo. -/
theorem moveCard_drop_on_column_witness :
    Kanban.cardsOf (Kanban.handleDragEnd exSameColCols "c1" (some "done")) "done" =
      some [exC1] ∧
    Kanban.cardsOf (Kanban.handleDragEnd exSameColCols "c1" (some "done")) "todo" =
      some [exC2] :=
  have h := moveCard_drop_on_column exSameColCols "c1" "done"
    { id := "todo", title := "Todo", cards := [exC1, exC2] } 0 exC1
    { id := "done", title := "Done", cards := [] }
    (by decide) (by decide) (by decide) (by decide)
  have h2 := h.2 (by decide)
  ⟨h2.1, h2.2.1⟩

namespace Kanban

/-- Spec-level observer: the sequence of (id, title) pairs of the
columns, i.e. everything about the column list except the cards. -/
def columnsShape (cols : List Column) : List (String × String) :=
  cols.map fun c => (c.id, c.title)

theorem columnsShape_map (cols : List Column) (F : Column → Column)
    (h : ∀ c, (F c).id = c.id ∧ (F c).title = c.title) :
    columnsShape (cols.map F) = columnsShape cols := by
  unfold columnsShape
  rw [List.map_map]
  refine List.map_congr_left ?_
  intro a _
  simp [Function.comp, (h a).1, (h a).2]

end Kanban

/-- Claim C10: every kanban operation keeps the number of columns, their
order, their ids and their titles unchanged; only the cards sequences can
differ.  This is stated as invariance of the (id, title) projection of
the column list under addCard, editCard, deleteCard and both branches of
the drag-end move. -/
theorem kanban_column_frame (cols : List Kanban.Column) (columnId : String)
    (newCard : Kanban.Card) (cardId newTitle deleteId activeId : String)
    (over : Option String) :
    Kanban.columnsShape (Kanban.handleAddCard cols columnId newCard) =
      Kanban.columnsShape cols ∧
    Kanban.columnsShape (Kanban.handleEditCard cols cardId newTitle) =
      Kanban.columnsShape cols ∧
    Kanban.columnsShape (Kanban.handleDeleteCard cols deleteId) =
      Kanban.columnsShape cols ∧
    Kanban.columnsShape (Kanban.handleDragEnd cols activeId over) =
      Kanban.columnsShape cols := by
  refine ⟨?_, ?_, ?_, ?_⟩
  · unfold Kanban.handleAddCard
    refine Kanban.columnsShape_map cols _ ?_
    intro c
    constructor <;> (dsimp only; split <;> rfl)
  · unfold Kanban.handleEditCard
    refine Kanban.columnsShape_map cols _ ?_
    intro c
    exact ⟨rfl, rfl⟩
  · unfold Kanban.handleDeleteCard
    refine Kanban.columnsShape_map cols _ ?_
    intro c
    exact ⟨rfl, rfl⟩
  · cases over with
    | none => rfl
    | some overId =>
      by_cases hao : activeId = overId
      · simp [Kanban.handleDragEnd, hao]
      · cases hfc : Kanban.findCard cols activeId with
        | none => simp [Kanban.handleDragEnd, hao, hfc]
        | some r =>
          obtain ⟨src, srcIdx, card⟩ := r
          cases hft : cols.find? (fun col => col.id == overId) with
          | some tgt =>
            by_cases hts : tgt.id = src.id
            · simp [Kanban.handleDragEnd, hao, hfc, hft, hts]
            · have hshow : Kanban.handleDragEnd cols activeId (some overId) =
                  cols.map (fun col =>
                    if col.id = src.id then
                      { col with cards := col.cards.filter fun c => c.id != activeId }
                    else if col.id = tgt.id then
                      { col with cards := col.cards ++ [card] }
                    else col) := by
                simp [Kanban.handleDragEnd, hao, hfc, hft, hts]
              rw [hshow]
              refine Kanban.columnsShape_map cols _ ?_
              intro c
              constructor <;> (dsimp only; split <;> (try rfl) <;> (split <;> rfl))
          | none =>
            cases hfo : Kanban.findCard cols overId with
            | none => simp [Kanban.handleDragEnd, hao, hfc, hft, hfo]
            | some r2 =>
              obtain ⟨tcol, tIdx, tcard⟩ := r2
              by_cases hsc : src.id = tcol.id
              · by_cases hidx : tIdx = srcIdx
                · simp [Kanban.handleDragEnd, hao, hfc, hft, hfo, hsc, hidx]
                · have hshow : Kanban.handleDragEnd cols activeId (some overId) =
                      cols.map (fun col =>
                        if col.id = src.id then
                          { col with cards :=
                              (jsInsertAt (src.cards.eraseIdx srcIdx)
                                (if tIdx > srcIdx then tIdx else tIdx) card) }
                        else col) := by
                    simp [Kanban.handleDragEnd, hao, hfc, hft, hfo, hsc, hidx]
                  rw [hshow]
                  refine Kanban.columnsShape_map cols _ ?_
                  intro c
                  constructor <;> (dsimp only; split <;> rfl)
              · have hshow : Kanban.handleDragEnd cols activeId (some overId) =
                    cols.map (fun col =>
                      if col.id = src.id then
                        { col with cards := col.cards.filter fun c => c.id != activeId }
                      else if col.id = tcol.id then
                        { col with cards := jsInsertAt col.cards tIdx card }
                      else col) := by
                  simp [Kanban.handleDragEnd, hao, hfc, hft, hfo, hsc]
                rw [hshow]
                refine Kanban.columnsShape_map cols _ ?_
                intro c
                constructor <;> (dsimp only; split <;> (try rfl) <;> (split <;> rfl))
